import Mathlib

/-!
Verification of the Debian version / dependency core of the `rust-debian`
repository (`src/version.rs`, `src/control.rs`).  Strings are modelled as
`List Char` (Rust iterates `s.chars()`; all separators involved are ASCII,
so char positions and Rust byte positions of separators agree).  Machine
integers are modelled as `Nat` with an explicit modulus where the source
uses wrapping `u64` arithmetic.
-/

set_option maxHeartbeats 1000000

/-- Modulus of Rust `u64` arithmetic (`2 ^ 64`). -/
def U64MOD : Nat := 18446744073709551616

/-- Modulus bound of Rust `u32` (`2 ^ 32`). -/
def U32BOUND : Nat := 4294967296

/-- Rust `char::is_ascii_digit`: `'0' ..= '9'`. -/
def isDigit (c : Char) : Bool := 48 ≤ c.toNat && c.toNat ≤ 57

/-- Rust `char::is_whitespace`: the Unicode `White_Space` property. -/
def isRustWhitespace (c : Char) : Bool :=
  (9 ≤ c.toNat && c.toNat ≤ 13) || c.toNat = 32 || c.toNat = 133 ||
    c.toNat = 160 || c.toNat = 5760 || (8192 ≤ c.toNat && c.toNat ≤ 8202) ||
    c.toNat = 8232 || c.toNat = 8233 || c.toNat = 8239 || c.toNat = 8287 ||
    c.toNat = 12288

/-- Rust `str::trim`: strip leading and trailing whitespace. -/
def trim (s : List Char) : List Char :=
  ((s.dropWhile isRustWhitespace).reverse.dropWhile isRustWhitespace).reverse

/-- Decimal digit list of a natural number, fuel-driven so that it reduces
definitionally (the fuel argument strictly exceeds the value). -/
def toDigitsAux : Nat → Nat → List Char
  | 0, _ => []
  | fuel + 1, n =>
    if n < 10 then [Nat.digitChar n]
    else toDigitsAux fuel (n / 10) ++ [Nat.digitChar (n % 10)]

/-- Decimal rendering of a natural number, as Rust `u64`/`u32` `Display`
produces it: no leading zeros, and `0` renders as `"0"`. -/
def natDigits (n : Nat) : List Char := toDigitsAux (n + 1) n

/-- Value of a list of ASCII digit characters, most significant first. -/
def digitsVal (l : List Char) : Nat :=
  l.foldl (fun a c => a * 10 + (c.toNat - 48)) 0

/-- Rust `u32::from_str`: an optional leading `'+'`, then one or more ASCII
digits; fails on anything else and on overflow past `u32::MAX`. -/
def parseU32 (s : List Char) : Option Nat :=
  let t := match s with
    | c :: rest => if c = '+' then rest else c :: rest
    | [] => []
  if t = [] then none
  else if t.all isDigit then
    if digitsVal t < U32BOUND then some (digitsVal t) else none
  else none

/-- Rust `s.find(c)` combined with slicing: splits `s` at the first
occurrence of `c` into the part before and the part after it. -/
def breakAtFirst (c : Char) : List Char → Option (List Char × List Char)
  | [] => none
  | x :: xs =>
    if x = c then some ([], xs)
    else
      match breakAtFirst c xs with
      | none => none
      | some (a, b) => some (x :: a, b)

/-- Rust `s.rfind(c)` combined with slicing: splits `s` at the last
occurrence of `c` into the part before and the part after it. -/
def breakAtLast (c : Char) : List Char → Option (List Char × List Char)
  | [] => none
  | x :: xs =>
    match breakAtLast c xs with
    | some (a, b) => some (x :: a, b)
    | none => if x = c then some ([], xs) else none

/-- `VersionElement` of `src/version.rs`: one alternating run, a (possibly
empty) non-digit run followed by a digit run collapsed to a `u64`. -/
structure VersionElement where
  alpha : List Char
  numeric : Nat
deriving DecidableEq

/-- `VersionPart` of `src/version.rs`: an ordered sequence of elements. -/
structure VersionPart where
  elements : List VersionElement
deriving DecidableEq

/-- `Version` of `src/version.rs`. -/
structure Version where
  epoch : Nat
  upstream_version : VersionPart
  debian_revision : VersionPart
deriving DecidableEq

/-- `ParseError` of `src/version.rs`. -/
structure ParseError where
  pos : Int
  msg : String
deriving DecidableEq

/-- Loop body of `Version::parse_part`: `inNum` is `in_numeric_part`, `cur`
the element being built, `elems` the accumulator.  The digit branch models
Rust release-mode wrapping `u64` arithmetic with an explicit modulus. -/
def parsePartGo (inNum : Bool) (cur : VersionElement)
    (elems : List VersionElement) : List Char → List VersionElement
  | [] => elems ++ [cur]
  | c :: rest =>
    if isDigit c then
      parsePartGo true ⟨cur.alpha, (cur.numeric * 10 % U64MOD + (c.toNat - 48)) % U64MOD⟩
        elems rest
    else if inNum then
      parsePartGo false ⟨[c], 0⟩ (elems ++ [cur]) rest
    else
      parsePartGo false ⟨cur.alpha ++ [c], cur.numeric⟩ elems rest

/-- `Version::parse_part`.  The Rust function always returns `Ok`, so it is
modelled as total. -/
def Version.parse_part (s : List Char) : VersionPart :=
  if s = [] then ⟨[]⟩ else ⟨parsePartGo false ⟨[], 0⟩ [] s⟩

/-- `Version::parse`: first `':'` delimits the epoch (which must parse as a
`u32`), last `'-'` delimits the Debian revision.  When the epoch parses, the
last `'-'` of the whole string lies after the `':'` (an epoch is all digits),
so searching the remainder is equivalent to Rust's `s.rfind('-')`. -/
def Version.parse (s : List Char) : Except ParseError Version :=
  match breakAtFirst ':' s with
  | some (pre, rest) =>
    match parseU32 pre with
    | none => .error ⟨0, "Expected a numeric epoch."⟩
    | some e =>
      match breakAtLast '-' rest with
      | some (u, r) => .ok ⟨e, Version.parse_part u, Version.parse_part r⟩
      | none => .ok ⟨e, Version.parse_part rest, ⟨[]⟩⟩
  | none =>
    match breakAtLast '-' s with
    | some (u, r) => .ok ⟨0, Version.parse_part u, Version.parse_part r⟩
    | none => .ok ⟨0, Version.parse_part s, ⟨[]⟩⟩

/-- `Display` for `VersionElement`: `alpha` then the decimal `numeric`. -/
def renderElement (e : VersionElement) : List Char :=
  e.alpha ++ natDigits e.numeric

/-- Concatenated rendering of a list of elements. -/
def renderElems : List VersionElement → List Char
  | [] => []
  | e :: rest => renderElement e ++ renderElems rest

/-- `Display` for `VersionPart`: concatenation of its elements. -/
def renderPart (p : VersionPart) : List Char := renderElems p.elements

/-- `Display` for `Version`: omits `epoch:` when the epoch is `0` and
`-revision` when the revision has no elements. -/
def renderVersion (v : Version) : List Char :=
  match v.epoch, v.debian_revision.elements.length with
  | 0, 0 => renderPart v.upstream_version
  | 0, _ + 1 => renderPart v.upstream_version ++ '-' :: renderPart v.debian_revision
  | _ + 1, 0 => natDigits v.epoch ++ ':' :: renderPart v.upstream_version
  | _ + 1, _ + 1 =>
    natDigits v.epoch ++ ':' :: renderPart v.upstream_version ++
      '-' :: renderPart v.debian_revision

/-- Comparison of two `Char`s by Unicode scalar value, as Rust compares the
characters of a `String` (UTF-8 byte order coincides with scalar order). -/
def charCmp (c d : Char) : Ordering := compare c.toNat d.toNat

/-- Lexicographic list comparison by an element comparator: the semantics of
Rust's slice/`Vec` `cmp`/`partial_cmp` (a strict prefix is smaller). -/
def lexBy (f : α → α → Ordering) : List α → List α → Ordering
  | [], [] => .eq
  | [], _ :: _ => .lt
  | _ :: _, [] => .gt
  | x :: xs, y :: ys =>
    match f x y with
    | .eq => lexBy f xs ys
    | o => o

/-- `PartialOrd for VersionElement` (always `Some` in Rust since `u64` and
`String` are totally ordered): `numeric` first, then `alpha`. -/
def versionElementCmpP (a b : VersionElement) : Ordering :=
  match compare a.numeric b.numeric with
  | .eq => lexBy charCmp a.alpha b.alpha
  | o => o

/-- Derived `PartialOrd for VersionPart`: lexicographic over the elements. -/
def versionPartCmpP (a b : VersionPart) : Ordering :=
  lexBy versionElementCmpP a.elements b.elements

/-- `PartialOrd for Version` (`partial_cmp`, always `Some`): epoch, then
upstream version, then Debian revision. -/
def versionCmpP (a b : Version) : Ordering :=
  match compare a.epoch b.epoch with
  | .eq =>
    match versionPartCmpP a.upstream_version b.upstream_version with
    | .eq => versionPartCmpP a.debian_revision b.debian_revision
    | o => o
  | o => o

/-- `Ord for VersionElement`: `assert!`s that both `alpha`s are empty and
compares only `numeric`; `none` models the panic of a failed assert. -/
def versionElementCmpOrd (a b : VersionElement) : Option Ordering :=
  if a.alpha = [] ∧ b.alpha = [] then some (compare a.numeric b.numeric)
  else none

/-- Derived `Ord for VersionPart` (slice lexicographic order over the
panicking element comparison); `none` propagates a panic. -/
def versionPartCmpOrdList : List VersionElement → List VersionElement → Option Ordering
  | [], [] => some .eq
  | [], _ :: _ => some .lt
  | _ :: _, [] => some .gt
  | x :: xs, y :: ys =>
    match versionElementCmpOrd x y with
    | none => none
    | some .eq => versionPartCmpOrdList xs ys
    | some o => some o

/-- `Ord for Version` (`Ord::cmp`): epoch, then the two parts via the
panicking element order; `none` models a panic. -/
def versionCmpOrd (a b : Version) : Option Ordering :=
  match compare a.epoch b.epoch with
  | .eq =>
    match versionPartCmpOrdList a.upstream_version.elements b.upstream_version.elements with
    | none => none
    | some .eq => versionPartCmpOrdList a.debian_revision.elements b.debian_revision.elements
    | some o => some o
  | o => o

/-- `VRel` of `src/control.rs`. -/
inductive VRel where
  | GreaterOrEqual
  | Greater
  | LesserOrEqual
  | Lesser
  | Equal
deriving DecidableEq

/-- `SingleDependency` of `src/control.rs`. -/
structure SingleDependency where
  package : List Char
  version : Option (VRel × Version)
  arch : Option (List Char)
  condition : Option (List Char)
deriving DecidableEq

/-- `Dependency` of `src/control.rs`: an OR-group of alternatives. -/
structure Dependency where
  alternatives : List SingleDependency
deriving DecidableEq

/-- Scanner states of `parse_single_dep`. -/
inductive ScanST where
  | PackageName
  | PreVersion
  | InVersionRel
  | InVersionDef
  | PreArch
  | InArch
  | InDependencyCondition
  | PreDependencyCondition
  | Done
deriving DecidableEq

/-- The `$\x7bbinary:Version\x7d` placeholder. -/
def binaryVersionPH : List Char := "$\x7bbinary:Version\x7d".toList

/-- The `$\x7bsource:Version\x7d` placeholder. -/
def sourceVersionPH : List Char := "$\x7bsource:Version\x7d".toList

/-- Character loop of `parse_single_dep`: `result` and the three scratch
buffers `vrel`, `vdef`, `arch` are threaded through.  In the
`InDependencyCondition` state the source pushes onto `result.condition`
(`unreachable!()` if it is `None`, which the flow never produces; modelled
with `getD`). -/
def psdGo (st : ScanST) (result : SingleDependency) (vrel vdef arch : List Char) :
    List Char → Except String SingleDependency
  | [] => .ok result
  | ch :: rest =>
    match st with
    | .PackageName =>
      if isRustWhitespace ch then psdGo .PreVersion result vrel vdef arch rest
      else if ch = '(' then psdGo .InVersionRel result vrel vdef arch rest
      else psdGo .PackageName { result with package := result.package ++ [ch] } vrel vdef arch rest
    | .PreVersion =>
      if isRustWhitespace ch then psdGo .PreVersion result vrel vdef arch rest
      else if ch = '(' then psdGo .InVersionRel result vrel vdef arch rest
      else if ch = '<' then
        psdGo .InDependencyCondition { result with condition := some [] } vrel vdef arch rest
      else if ch = '[' then psdGo .InArch result vrel vdef arch rest
      else .error "garbage after package name"
    | .InVersionRel =>
      if ch = '>' ∨ ch = '<' ∨ ch = '=' then
        psdGo .InVersionRel result (vrel ++ [ch]) vdef arch rest
      else if ch = ')' then .error "no version given"
      else psdGo .InVersionDef result vrel (vdef ++ [ch]) arch rest
    | .InVersionDef =>
      if ch = ')' then
        if trim vdef = binaryVersionPH ∨ trim vdef = sourceVersionPH then
          psdGo .InVersionDef result vrel vdef arch rest
        else
          match Version.parse (trim vdef) with
          | .error _ => .error "error parsing version"
          | .ok version =>
            if vrel = ['>', '='] ∨ vrel = ['>'] then
              psdGo .PreArch { result with version := some (.GreaterOrEqual, version) } vrel vdef arch rest
            else if vrel = ['>', '>'] then
              psdGo .PreArch { result with version := some (.Greater, version) } vrel vdef arch rest
            else if vrel = ['<', '='] ∨ vrel = ['<'] then
              psdGo .PreArch { result with version := some (.LesserOrEqual, version) } vrel vdef arch rest
            else if vrel = ['<', '<'] then
              psdGo .PreArch { result with version := some (.Lesser, version) } vrel vdef arch rest
            else if vrel = ['='] then
              psdGo .PreArch { result with version := some (.Equal, version) } vrel vdef arch rest
            else .error "invalid relation"
      else psdGo .InVersionDef result vrel (vdef ++ [ch]) arch rest
    | .PreArch =>
      if isRustWhitespace ch then psdGo .PreArch result vrel vdef arch rest
      else if ch = '[' then psdGo .InArch result vrel vdef arch rest
      else .error "garbage after version"
    | .InArch =>
      if ch = ']' then
        if trim arch ≠ [] then
          psdGo .PreDependencyCondition { result with arch := some (trim arch) } vrel vdef arch rest
        else .error "empty arch given"
      else psdGo .InArch result vrel vdef (arch ++ [ch]) rest
    | .InDependencyCondition =>
      if ch = '>' then psdGo .Done result vrel vdef arch rest
      else
        psdGo .InDependencyCondition
          { result with condition := some ((result.condition.getD []) ++ [ch]) } vrel vdef arch rest
    | .PreDependencyCondition =>
      if isRustWhitespace ch then psdGo .PreDependencyCondition result vrel vdef arch rest
      else if ch = '<' then
        psdGo .InDependencyCondition { result with condition := some [] } vrel vdef arch rest
      else psdGo .Done result vrel vdef arch rest
    | .Done =>
      if isRustWhitespace ch then psdGo .Done result vrel vdef arch rest
      else .error "garbage after arch"

/-- `parse_single_dep` of `src/control.rs`. -/
def parse_single_dep (s : List Char) : Except String SingleDependency :=
  psdGo .PackageName ⟨[], none, none, none⟩ [] [] [] s

/-- Rust `str::split(sep)`: all (possibly empty) pieces, in order. -/
def splitOnChar (sep : Char) : List Char → List (List Char)
  | [] => [[]]
  | c :: rest =>
    match splitOnChar sep rest with
    | [] => [[]]
    | h :: t => if c = sep then [] :: h :: t else (c :: h) :: t

/-- The comma-separated, trimmed AND-segments of a dependency list. -/
def segsOf (s : List Char) : List (List Char) := (splitOnChar ',' s).map trim

/-- The pipe-separated, trimmed OR-alternatives of one (trimmed) segment. -/
def altsOf (seg : List Char) : List (List Char) := (splitOnChar '|' seg).map trim

/-- Sequential map in `Except`, stopping at the first error: the shape of
the source's `for` loops with `?`. -/
def mapE (f : α → Except ε β) : List α → Except ε (List β)
  | [] => .ok []
  | x :: xs =>
    match f x with
    | .error e => .error e
    | .ok y =>
      match mapE f xs with
      | .error e => .error e
      | .ok ys => .ok (y :: ys)

/-- `parse_dep_list` of `src/control.rs`: split on `','`, trim, split each
segment on `'|'`, trim, parse every alternative, abort on the first error. -/
def parse_dep_list (s : List Char) : Except String (List Dependency) :=
  mapE (fun seg =>
    match mapE parse_single_dep (altsOf seg) with
    | .error e => .error e
    | .ok alts => .ok ⟨alts⟩) (segsOf s)

/-- Is an `Except` an error? -/
def isErr : Except ε α → Bool
  | .error _ => true
  | .ok _ => false

instance {ε α : Type} [DecidableEq ε] [DecidableEq α] : DecidableEq (Except ε α) :=
  fun x y =>
    match x, y with
    | .error a, .error b =>
      if h : a = b then isTrue (by rw [h]) else isFalse (fun hc => h (Except.error.inj hc))
    | .error _, .ok _ => isFalse (fun hc => Except.noConfusion hc)
    | .ok _, .error _ => isFalse (fun hc => Except.noConfusion hc)
    | .ok a, .ok b =>
      if h : a = b then isTrue (by rw [h]) else isFalse (fun hc => h (Except.ok.inj hc))

/-- Structural invariant of a scanned element: the `alpha` run holds no
digits and `numeric` fits in a `u64`. -/
def okElem (e : VersionElement) : Prop :=
  (∀ c ∈ e.alpha, isDigit c = false) ∧ e.numeric < U64MOD

/-- Invariant of an element list produced by `Version::parse_part`: every
element is well formed and every element after the first was opened by a
non-digit character, so its `alpha` is nonempty. -/
def WFlist : List VersionElement → Prop
  | [] => True
  | e :: rest => okElem e ∧ ∀ f ∈ rest, okElem f ∧ f.alpha ≠ []

/-- Invariant of a `VersionPart` produced by `Version::parse_part`. -/
def WFpart (p : VersionPart) : Prop := WFlist p.elements

/-- No alpha run of the part contains the character `ch`. -/
def partAlphaFree (ch : Char) (p : VersionPart) : Prop :=
  ∀ e ∈ p.elements, ch ∉ e.alpha

instance : DecidablePred (okElem ·) := fun e => by
  unfold okElem
  infer_instance

instance : (l : List VersionElement) → Decidable (WFlist l)
  | [] => by
    unfold WFlist
    infer_instance
  | _ :: _ => by
    unfold WFlist
    infer_instance

instance : (p : VersionPart) → Decidable (WFpart p) := fun p => by
  unfold WFpart
  infer_instance

instance : (ch : Char) → (p : VersionPart) → Decidable (partAlphaFree ch p) :=
  fun ch p => by
    unfold partAlphaFree
    infer_instance

/-! ### Character and digit lemmas -/

theorem char_toNat_inj {c d : Char} (h : c.toNat = d.toNat) : c = d := by
  cases c
  cases d
  simp only [Char.toNat] at h
  congr 1
  exact UInt32.ext h

theorem isDigit_iff {c : Char} : isDigit c = true ↔ 48 ≤ c.toNat ∧ c.toNat ≤ 57 := by
  simp [isDigit]

theorem digitChar_toNat {m : Nat} (h : m < 10) : (Nat.digitChar m).toNat = 48 + m := by
  interval_cases m <;> rfl

theorem isDigit_digitChar {m : Nat} (h : m < 10) : isDigit (Nat.digitChar m) = true := by
  interval_cases m <;> decide

theorem digitChar_of_isDigit {c : Char} (h : isDigit c = true) :
    Nat.digitChar (c.toNat - 48) = c := by
  have h' := isDigit_iff.mp h
  apply char_toNat_inj
  rw [digitChar_toNat (by omega)]
  omega

theorem toDigitsAux_fuel {f1 f2 n : Nat} (h1 : n < f1) (h2 : n < f2) :
    toDigitsAux f1 n = toDigitsAux f2 n := by
  induction f1 generalizing f2 n with
  | zero => omega
  | succ f ih =>
    cases f2 with
    | zero => omega
    | succ g =>
      simp only [toDigitsAux]
      by_cases hn : n < 10
      · simp [hn]
      · have hd : n / 10 < n := Nat.div_lt_self (by omega) (by omega)
        simp only [hn, if_false]
        rw [ih (show n / 10 < f by omega) (show n / 10 < g by omega)]

theorem natDigits_eq (n : Nat) :
    natDigits n =
      if n < 10 then [Nat.digitChar n]
      else natDigits (n / 10) ++ [Nat.digitChar (n % 10)] := by
  by_cases h : n < 10
  · simp [natDigits, toDigitsAux, h]
  · have hd : n / 10 < n := Nat.div_lt_self (by omega) (by omega)
    simp only [h, if_false]
    show toDigitsAux (n + 1) n = natDigits (n / 10) ++ [Nat.digitChar (n % 10)]
    rw [show toDigitsAux (n + 1) n = toDigitsAux n (n / 10) ++ [Nat.digitChar (n % 10)] from by
      simp only [toDigitsAux, h, if_false]]
    rw [show natDigits (n / 10) = toDigitsAux n (n / 10) from
      toDigitsAux_fuel (Nat.lt_succ_self _) (show n / 10 < n by omega)]

theorem natDigits_ne_nil (n : Nat) : natDigits n ≠ [] := by
  rw [natDigits_eq]
  split <;> simp

theorem natDigits_all_digits (n : Nat) : ∀ c ∈ natDigits n, isDigit c = true := by
  induction n using Nat.strong_induction_on with
  | _ n ih =>
    rw [natDigits_eq]
    by_cases h : n < 10
    · simp only [h, if_true, List.mem_singleton]
      rintro c rfl
      exact isDigit_digitChar h
    · have hd : n / 10 < n := Nat.div_lt_self (by omega) (by omega)
      simp only [h, if_false, List.mem_append, List.mem_singleton]
      rintro c (hc | rfl)
      · exact ih _ hd c hc
      · exact isDigit_digitChar (Nat.mod_lt _ (by omega))

theorem digitsVal_snoc (l : List Char) (c : Char) :
    digitsVal (l ++ [c]) = digitsVal l * 10 + (c.toNat - 48) := by
  simp [digitsVal, List.foldl_append]

theorem digitsVal_natDigits (n : Nat) : digitsVal (natDigits n) = n := by
  induction n using Nat.strong_induction_on with
  | _ n ih =>
    rw [natDigits_eq]
    by_cases h : n < 10
    · simp only [h, if_true]
      show digitsVal ([] ++ [Nat.digitChar n]) = n
      rw [digitsVal_snoc, digitChar_toNat h]
      simp [digitsVal]
    · have hd : n / 10 < n := Nat.div_lt_self (by omega) (by omega)
      simp only [h, if_false]
      rw [digitsVal_snoc, ih _ hd, digitChar_toNat (Nat.mod_lt _ (by omega))]
      omega

theorem digitsVal_foldl_ge (l : List Char) (a : Nat) :
    a ≤ l.foldl (fun a c => a * 10 + (c.toNat - 48)) a := by
  induction l generalizing a with
  | nil => exact Nat.le_refl _
  | cons c rest ih =>
    simp only [List.foldl_cons]
    exact le_trans (by omega) (ih (a * 10 + (c.toNat - 48)))

theorem digitsVal_pos {l : List Char} (hne : l ≠ [])
    (hz : l.head? ≠ some '0') (hd : ∀ c ∈ l, isDigit c = true) :
    1 ≤ digitsVal l := by
  cases l with
  | nil => exact absurd rfl hne
  | cons c rest =>
    have hc : isDigit c = true := hd c (List.mem_cons_self _ _)
    have hc' := isDigit_iff.mp hc
    have hcz : c ≠ '0' := by
      intro h
      exact hz (by simp [h])
    have : c.toNat ≠ 48 := fun h => hcz (char_toNat_inj (h.trans (by decide)))
    calc 1 ≤ c.toNat - 48 := by omega
    _ ≤ digitsVal (c :: rest) := by
      simp only [digitsVal, List.foldl_cons, Nat.zero_mul, Nat.zero_add]
      exact digitsVal_foldl_ge rest _

theorem natDigits_digitsVal {l : List Char} (hd : ∀ c ∈ l, isDigit c = true)
    (hne : l ≠ []) (hz : l.head? = some '0' → l.length = 1) :
    natDigits (digitsVal l) = l := by
  induction l using List.reverseRecOn with
  | nil => exact absurd rfl hne
  | append_singleton xs x ih =>
    have hx : isDigit x = true := hd x (by simp)
    have hx' := isDigit_iff.mp hx
    rw [digitsVal_snoc]
    by_cases hxs0 : xs = []
    · subst hxs0
      simp only [digitsVal, List.foldl_nil, Nat.zero_mul, Nat.zero_add]
      rw [natDigits_eq]
      rw [if_pos (show x.toNat - 48 < 10 by omega)]
      rw [digitChar_of_isDigit hx]
      rfl
    · have hdxs : ∀ c ∈ xs, isDigit c = true := fun c hc => hd c (by simp [hc])
      have hy_ne : xs.head? ≠ some '0' := by
        intro hcon
        have hlen := hz (by
          cases xs with
          | nil => exact absurd rfl hxs0
          | cons y ys => simpa using hcon)
        have hxl : xs.length = 0 := by
          simp only [List.length_append, List.length_singleton] at hlen
          omega
        exact hxs0 (List.length_eq_zero.mp hxl)
      have hpos : 1 ≤ digitsVal xs := digitsVal_pos hxs0 hy_ne hdxs
      rw [natDigits_eq]
      rw [if_neg (show ¬(digitsVal xs * 10 + (x.toNat - 48) < 10) by omega)]
      have hdiv : (digitsVal xs * 10 + (x.toNat - 48)) / 10 = digitsVal xs := by
        omega
      have hmod : (digitsVal xs * 10 + (x.toNat - 48)) % 10 = x.toNat - 48 := by
        omega
      rw [hdiv, hmod, digitChar_of_isDigit hx]
      rw [ih hdxs hxs0 (fun h => absurd h hy_ne)]

theorem parseU32_natDigits {e : Nat} (h : e < U32BOUND) :
    parseU32 (natDigits e) = some e := by
  obtain ⟨c, cs, hc⟩ : ∃ c cs, natDigits e = c :: cs := by
    cases hn : natDigits e with
    | nil => exact absurd hn (natDigits_ne_nil e)
    | cons c cs => exact ⟨c, cs, rfl⟩
  have hcd : isDigit c = true := natDigits_all_digits e c (by rw [hc]; simp)
  have hplus : c ≠ '+' := by
    intro hcon
    rw [hcon] at hcd
    exact absurd hcd (by decide)
  have hall : (c :: cs).all isDigit = true := by
    rw [← hc]
    simp only [List.all_eq_true]
    exact fun x hx => natDigits_all_digits e x hx
  have hval : digitsVal (c :: cs) = e := by
    rw [← hc]
    exact digitsVal_natDigits e
  unfold parseU32
  rw [hc]
  simp only [if_neg hplus, hall, if_true, hval]
  simp [h]

/-! ### Splitting lemmas -/

theorem breakAtFirst_eq_none {c : Char} {s : List Char} :
    breakAtFirst c s = none ↔ c ∉ s := by
  induction s with
  | nil => simp [breakAtFirst]
  | cons x xs ih =>
    simp only [breakAtFirst]
    by_cases hx : x = c
    · subst hx
      rw [if_pos rfl]
      simp
    · rw [if_neg hx]
      cases hbf : breakAtFirst c xs with
      | none =>
        simp only [List.mem_cons, not_or]
        constructor
        · intro _
          exact ⟨fun h => hx h.symm, ih.mp hbf⟩
        · intro _
          trivial
      | some ab =>
        constructor
        · intro h
          exact absurd h (by simp)
        · intro h
          have : breakAtFirst c xs = none := by
            rw [ih]
            intro hm
            exact h (by simp [hm])
          rw [hbf] at this
          exact absurd this (by simp)

theorem breakAtFirst_eq_some {c : Char} {s : List Char} : ∀ {a b : List Char},
    breakAtFirst c s = some (a, b) ↔ s = a ++ c :: b ∧ c ∉ a := by
  induction s with
  | nil =>
    intro a b
    constructor
    · intro h
      exact absurd h (by simp [breakAtFirst])
    · rintro ⟨h, -⟩
      exact absurd h (by simp)
  | cons x xs ih =>
    intro a b
    simp only [breakAtFirst]
    by_cases hx : x = c
    · subst hx
      rw [if_pos rfl]
      constructor
      · intro h
        simp only [Option.some.injEq, Prod.mk.injEq] at h
        obtain ⟨h1, h2⟩ := h
        subst h1
        subst h2
        exact ⟨by simp, by simp⟩
      · rintro ⟨heq, hmem⟩
        cases a with
        | nil =>
          simp only [List.nil_append, List.cons.injEq] at heq
          simp [heq.2]
        | cons y a' =>
          exfalso
          simp only [List.cons_append, List.cons.injEq] at heq
          exact hmem (by rw [← heq.1]; exact List.mem_cons_self _ _)
    · rw [if_neg hx]
      cases hbf : breakAtFirst c xs with
      | none =>
        constructor
        · intro h
          exact absurd h (by simp)
        · rintro ⟨heq, hmem⟩
          exfalso
          cases a with
          | nil =>
            simp only [List.nil_append, List.cons.injEq] at heq
            exact hx heq.1
          | cons y a' =>
            simp only [List.cons_append, List.cons.injEq] at heq
            have hsome : breakAtFirst c xs = some (a', b) :=
              ih.mpr ⟨heq.2, fun hm => hmem (by simp [hm])⟩
            rw [hbf] at hsome
            exact absurd hsome (by simp)
      | some ab =>
        obtain ⟨a0, b0⟩ := ab
        constructor
        · intro h
          simp only [Option.some.injEq, Prod.mk.injEq] at h
          obtain ⟨h1, h2⟩ := h
          subst h1
          subst h2
          obtain ⟨h1, h2⟩ := ih.mp hbf
          constructor
          · rw [h1]
            simp
          · simp only [List.mem_cons, not_or]
            exact ⟨fun hc' => hx hc'.symm, h2⟩
        · rintro ⟨heq, hmem⟩
          cases a with
          | nil =>
            simp only [List.nil_append, List.cons.injEq] at heq
            exact absurd heq.1 hx
          | cons y a' =>
            simp only [List.cons_append, List.cons.injEq] at heq
            obtain ⟨h1, heq2⟩ := heq
            subst h1
            have hsome : breakAtFirst c xs = some (a', b) :=
              ih.mpr ⟨heq2, fun hm => hmem (by simp [hm])⟩
            rw [hbf] at hsome
            simp only [Option.some.injEq, Prod.mk.injEq] at hsome
            obtain ⟨h1, h2⟩ := hsome
            subst h1
            subst h2
            rfl

theorem breakAtLast_eq_none {c : Char} {s : List Char} :
    breakAtLast c s = none ↔ c ∉ s := by
  induction s with
  | nil => simp [breakAtLast]
  | cons x xs ih =>
    simp only [breakAtLast]
    cases hbl : breakAtLast c xs with
    | some ab =>
      constructor
      · intro h
        exact absurd h (by simp)
      · intro h
        have hne : c ∉ xs := fun hm => h (by simp [hm])
        rw [← ih] at hne
        rw [hbl] at hne
        exact absurd hne (by simp)
    | none =>
      have hns : c ∉ xs := ih.mp hbl
      by_cases hx : x = c
      · subst hx
        rw [if_pos rfl]
        constructor
        · intro h
          exact absurd h (by simp)
        · intro h
          exact absurd (List.mem_cons_self _ _) h
      · rw [if_neg hx]
        simp only [List.mem_cons, not_or]
        constructor
        · intro _
          exact ⟨fun h => hx h.symm, hns⟩
        · intro _
          trivial

theorem breakAtLast_eq_some {c : Char} {s : List Char} : ∀ {a b : List Char},
    breakAtLast c s = some (a, b) ↔ s = a ++ c :: b ∧ c ∉ b := by
  induction s with
  | nil =>
    intro a b
    constructor
    · intro h
      exact absurd h (by simp [breakAtLast])
    · rintro ⟨h, -⟩
      exact absurd h (by simp)
  | cons x xs ih =>
    intro a b
    simp only [breakAtLast]
    cases hbl : breakAtLast c xs with
    | some ab =>
      obtain ⟨a0, b0⟩ := ab
      have hmem_xs : c ∈ xs := by
        by_contra hns
        rw [← breakAtLast_eq_none] at hns
        rw [hbl] at hns
        exact absurd hns (by simp)
      constructor
      · intro h
        simp only [Option.some.injEq, Prod.mk.injEq] at h
        obtain ⟨h1, h2⟩ := h
        subst h1
        subst h2
        obtain ⟨h1, h2⟩ := ih.mp hbl
        exact ⟨by rw [h1]; simp, h2⟩
      · rintro ⟨heq, hmem⟩
        cases a with
        | nil =>
          exfalso
          simp only [List.nil_append, List.cons.injEq] at heq
          obtain ⟨h1, h2⟩ := heq
          subst h2
          exact hmem hmem_xs
        | cons y a' =>
          simp only [List.cons_append, List.cons.injEq] at heq
          obtain ⟨h1, heq2⟩ := heq
          subst h1
          have hsome : breakAtLast c xs = some (a', b) := ih.mpr ⟨heq2, hmem⟩
          rw [hbl] at hsome
          simp only [Option.some.injEq, Prod.mk.injEq] at hsome
          obtain ⟨h1, h2⟩ := hsome
          subst h1
          subst h2
          rfl
    | none =>
      have hns : c ∉ xs := breakAtLast_eq_none.mp hbl
      by_cases hx : x = c
      · subst hx
        rw [if_pos rfl]
        constructor
        · intro h
          simp only [Option.some.injEq, Prod.mk.injEq] at h
          obtain ⟨h1, h2⟩ := h
          subst h1
          subst h2
          exact ⟨by simp, hns⟩
        · rintro ⟨heq, hmem⟩
          cases a with
          | nil =>
            simp only [List.nil_append, List.cons.injEq] at heq
            simp [heq.2]
          | cons y a' =>
            exfalso
            simp only [List.cons_append, List.cons.injEq] at heq
            exact hns (by rw [heq.2]; simp)
      · rw [if_neg hx]
        constructor
        · intro h
          exact absurd h (by simp)
        · rintro ⟨heq, hmem⟩
          exfalso
          cases a with
          | nil =>
            simp only [List.nil_append, List.cons.injEq] at heq
            exact hx heq.1
          | cons y a' =>
            simp only [List.cons_append, List.cons.injEq] at heq
            exact hns (by rw [heq.2]; simp)

theorem breakAtFirst_fst_takeWhile {c : Char} {s a b : List Char}
    (h : breakAtFirst c s = some (a, b)) :
    a = s.takeWhile (fun x => x != c) := by
  obtain ⟨heq, hmem⟩ := breakAtFirst_eq_some.mp h
  subst heq
  clear h
  induction a with
  | nil => simp [List.takeWhile]
  | cons y a' ih =>
    have hy : y ≠ c := fun hcon => hmem (by simp [hcon])
    simp only [List.cons_append, List.takeWhile]
    have hyb : (y != c) = true := bne_iff_ne.mpr hy
    simp only [hyb, List.append_eq]
    rw [← ih (fun hm => hmem (by simp [hm]))]

/-! ### Comparator lemmas -/

theorem charCmp_eq_eq {c d : Char} : charCmp c d = .eq ↔ c = d := by
  simp only [charCmp]
  rw [Nat.compare_eq_eq]
  exact ⟨char_toNat_inj, fun h => by rw [h]⟩

theorem charCmp_lt_trans {a b c : Char} (h1 : charCmp a b = .lt) (h2 : charCmp b c = .lt) :
    charCmp a c = .lt := by
  simp only [charCmp, Nat.compare_eq_lt] at *
  omega

theorem lexBy_eq_eq {f : α → α → Ordering} (hf : ∀ a b, f a b = .eq ↔ a = b) :
    ∀ (xs ys : List α), lexBy f xs ys = .eq ↔ xs = ys := by
  intro xs
  induction xs with
  | nil =>
    intro ys
    cases ys <;> simp [lexBy]
  | cons x xs ih =>
    intro ys
    cases ys with
    | nil => simp [lexBy]
    | cons y ys' =>
      cases hxy : f x y with
      | eq =>
        have hx : x = y := (hf x y).mp hxy
        subst hx
        simp only [lexBy, hxy]
        rw [ih ys']
        simp
      | lt =>
        simp only [lexBy, hxy]
        constructor
        · intro h
          exact absurd h (by decide)
        · intro h
          simp only [List.cons.injEq] at h
          rw [(hf x y).mpr h.1] at hxy
          exact absurd hxy (by decide)
      | gt =>
        simp only [lexBy, hxy]
        constructor
        · intro h
          exact absurd h (by decide)
        · intro h
          simp only [List.cons.injEq] at h
          rw [(hf x y).mpr h.1] at hxy
          exact absurd hxy (by decide)

theorem lexBy_lt_trans {f : α → α → Ordering} (hfeq : ∀ a b, f a b = .eq ↔ a = b)
    (hft : ∀ a b c, f a b = .lt → f b c = .lt → f a c = .lt) :
    ∀ (xs ys zs : List α), lexBy f xs ys = .lt → lexBy f ys zs = .lt →
      lexBy f xs zs = .lt := by
  intro xs
  induction xs with
  | nil =>
    intro ys zs h1 h2
    cases ys with
    | nil => exact absurd h1 (by simp [lexBy])
    | cons y ys' =>
      cases zs with
      | nil => exact absurd h2 (by simp [lexBy])
      | cons z zs' => simp [lexBy]
  | cons x xs ih =>
    intro ys zs h1 h2
    cases ys with
    | nil => exact absurd h1 (by simp [lexBy])
    | cons y ys' =>
      cases zs with
      | nil => exact absurd h2 (by simp [lexBy])
      | cons z zs' =>
        cases hxy : f x y with
        | gt =>
          simp only [lexBy, hxy] at h1
          exact absurd h1 (by decide)
        | lt =>
          cases hyz : f y z with
          | gt =>
            simp only [lexBy, hyz] at h2
            exact absurd h2 (by decide)
          | lt =>
            simp only [lexBy]
            rw [hft x y z hxy hyz]
          | eq =>
            have : y = z := (hfeq y z).mp hyz
            subst this
            simp only [lexBy, hxy]
        | eq =>
          have : x = y := (hfeq x y).mp hxy
          subst this
          simp only [lexBy, hxy] at h1
          cases hyz : f x z with
          | gt =>
            simp only [lexBy, hyz] at h2
            exact absurd h2 (by decide)
          | lt =>
            simp only [lexBy, hyz]
          | eq =>
            simp only [lexBy, hyz] at h2
            simp only [lexBy, hyz]
            exact ih ys' zs' h1 h2

theorem versionElementCmpP_eq_eq (a b : VersionElement) :
    versionElementCmpP a b = .eq ↔ a = b := by
  unfold versionElementCmpP
  cases hn : compare a.numeric b.numeric with
  | eq =>
    have hnum : a.numeric = b.numeric := Nat.compare_eq_eq.mp hn
    rw [lexBy_eq_eq (fun c d => charCmp_eq_eq)]
    constructor
    · intro h
      cases a
      cases b
      simp_all
    · intro h
      rw [h]
  | lt =>
    constructor
    · intro h
      simp at h
    · intro h
      subst h
      have : compare a.numeric a.numeric = Ordering.eq := Nat.compare_eq_eq.mpr rfl
      rw [this] at hn
      exact absurd hn (by decide)
  | gt =>
    constructor
    · intro h
      simp at h
    · intro h
      subst h
      have : compare a.numeric a.numeric = Ordering.eq := Nat.compare_eq_eq.mpr rfl
      rw [this] at hn
      exact absurd hn (by decide)

theorem versionElementCmpP_lt_trans (a b c : VersionElement)
    (h1 : versionElementCmpP a b = .lt) (h2 : versionElementCmpP b c = .lt) :
    versionElementCmpP a c = .lt := by
  unfold versionElementCmpP at *
  cases hab : compare a.numeric b.numeric with
  | gt =>
    rw [hab] at h1
    simp at h1
  | lt =>
    cases hbc : compare b.numeric c.numeric with
    | gt =>
      rw [hbc] at h2
      simp at h2
    | lt =>
      have : compare a.numeric c.numeric = .lt := by
        rw [Nat.compare_eq_lt] at *
        omega
      rw [this]
    | eq =>
      have heq : b.numeric = c.numeric := Nat.compare_eq_eq.mp hbc
      rw [← heq, hab]
  | eq =>
    have heq : a.numeric = b.numeric := Nat.compare_eq_eq.mp hab
    rw [hab] at h1
    cases hbc : compare b.numeric c.numeric with
    | gt =>
      rw [hbc] at h2
      simp at h2
    | lt =>
      rw [heq, hbc]
    | eq =>
      rw [hbc] at h2
      rw [heq, hbc]
      exact lexBy_lt_trans (fun c d => charCmp_eq_eq)
        (fun a b c => charCmp_lt_trans) _ _ _ h1 h2

theorem versionPartCmpP_eq_eq (a b : VersionPart) : versionPartCmpP a b = .eq ↔ a = b := by
  unfold versionPartCmpP
  rw [lexBy_eq_eq versionElementCmpP_eq_eq]
  constructor
  · intro h
    cases a
    cases b
    simp_all
  · intro h
    rw [h]

theorem versionPartCmpP_lt_trans (a b c : VersionPart)
    (h1 : versionPartCmpP a b = .lt) (h2 : versionPartCmpP b c = .lt) :
    versionPartCmpP a c = .lt :=
  lexBy_lt_trans versionElementCmpP_eq_eq versionElementCmpP_lt_trans _ _ _ h1 h2

theorem versionCmpP_then (a b : Version) :
    versionCmpP a b =
      (compare a.epoch b.epoch).then
        ((versionPartCmpP a.upstream_version b.upstream_version).then
          (versionPartCmpP a.debian_revision b.debian_revision)) := by
  unfold versionCmpP
  cases compare a.epoch b.epoch <;>
    cases versionPartCmpP a.upstream_version b.upstream_version <;> rfl

theorem versionCmpP_eq_eq (a b : Version) : versionCmpP a b = .eq ↔ a = b := by
  rw [versionCmpP_then, Ordering.then_eq_eq, Ordering.then_eq_eq]
  rw [Nat.compare_eq_eq, versionPartCmpP_eq_eq, versionPartCmpP_eq_eq]
  constructor
  · intro h
    cases a
    cases b
    simp_all
  · intro h
    rw [h]
    exact ⟨rfl, rfl, rfl⟩

theorem versionCmpP_lt_iff (a b : Version) :
    versionCmpP a b = .lt ↔
      compare a.epoch b.epoch = .lt ∨
        (a.epoch = b.epoch ∧
          (versionPartCmpP a.upstream_version b.upstream_version = .lt ∨
            (a.upstream_version = b.upstream_version ∧
              versionPartCmpP a.debian_revision b.debian_revision = .lt))) := by
  rw [versionCmpP_then, Ordering.then_eq_lt, Ordering.then_eq_lt]
  rw [Nat.compare_eq_eq, versionPartCmpP_eq_eq]

theorem versionCmpP_lt_trans (a b c : Version)
    (h1 : versionCmpP a b = .lt) (h2 : versionCmpP b c = .lt) :
    versionCmpP a c = .lt := by
  rw [versionCmpP_lt_iff] at *
  rcases h1 with h1 | ⟨he1, h1⟩
  · rcases h2 with h2 | ⟨he2, h2⟩
    · left
      rw [Nat.compare_eq_lt] at *
      omega
    · left
      rw [← he2]
      exact h1
  · rcases h2 with h2 | ⟨he2, h2⟩
    · left
      rw [he1]
      exact h2
    · right
      refine ⟨he1.trans he2, ?_⟩
      rcases h1 with h1 | ⟨hu1, h1⟩
      · rcases h2 with h2 | ⟨hu2, h2⟩
        · exact Or.inl (versionPartCmpP_lt_trans _ _ _ h1 h2)
        · exact Or.inl (hu2 ▸ h1)
      · rcases h2 with h2 | ⟨hu2, h2⟩
        · exact Or.inl (hu1 ▸ h2)
        · exact Or.inr ⟨hu1.trans hu2, versionPartCmpP_lt_trans _ _ _ h1 h2⟩

/-! ### Scanning lemmas for `Version::parse_part` -/

theorem parsePartGo_nil (inNum : Bool) (cur : VersionElement) (elems : List VersionElement) :
    parsePartGo inNum cur elems [] = elems ++ [cur] := rfl

theorem parsePartGo_digit (inNum : Bool) (cur : VersionElement) (elems : List VersionElement)
    (c : Char) (rest : List Char) (hc : isDigit c = true) :
    parsePartGo inNum cur elems (c :: rest) =
      parsePartGo true ⟨cur.alpha, (cur.numeric * 10 % U64MOD + (c.toNat - 48)) % U64MOD⟩
        elems rest := by
  simp [parsePartGo, hc]

theorem parsePartGo_close (cur : VersionElement) (elems : List VersionElement)
    (c : Char) (rest : List Char) (hc : isDigit c = false) :
    parsePartGo true cur elems (c :: rest) =
      parsePartGo false ⟨[c], 0⟩ (elems ++ [cur]) rest := by
  simp [parsePartGo, hc]

theorem parsePartGo_alpha (cur : VersionElement) (elems : List VersionElement)
    (c : Char) (rest : List Char) (hc : isDigit c = false) :
    parsePartGo false cur elems (c :: rest) =
      parsePartGo false ⟨cur.alpha ++ [c], cur.numeric⟩ elems rest := by
  simp [parsePartGo, hc]

theorem parsePartGo_alpha_run : ∀ (w : List Char) (cur : VersionElement)
    (elems : List VersionElement) (rest : List Char),
    (∀ c ∈ w, isDigit c = false) →
    parsePartGo false cur elems (w ++ rest) =
      parsePartGo false ⟨cur.alpha ++ w, cur.numeric⟩ elems rest := by
  intro w
  induction w with
  | nil =>
    intro cur elems rest _
    simp
  | cons c w ih =>
    intro cur elems rest hw
    have hc : isDigit c = false := hw c (by simp)
    rw [List.cons_append, parsePartGo_alpha cur elems c _ hc]
    rw [ih _ elems rest (fun x hx => hw x (by simp [hx]))]
    simp

theorem parsePartGo_digit_run : ∀ (d : List Char), d ≠ [] →
    (∀ c ∈ d, isDigit c = true) →
    ∀ (inNum : Bool) (cur : VersionElement) (elems : List VersionElement) (rest : List Char),
    parsePartGo inNum cur elems (d ++ rest) =
      parsePartGo true
        ⟨cur.alpha, d.foldl (fun a c => (a * 10 % U64MOD + (c.toNat - 48)) % U64MOD) cur.numeric⟩
        elems rest := by
  intro d
  induction d with
  | nil =>
    intro h
    exact absurd rfl h
  | cons c d ih =>
    intro _ hd inNum cur elems rest
    have hc := hd c (by simp)
    rw [List.cons_append, parsePartGo_digit inNum cur elems c _ hc]
    by_cases hdn : d = []
    · subst hdn
      simp [List.foldl]
    · rw [ih hdn (fun x hx => hd x (by simp [hx])) true _ elems rest]
      simp [List.foldl]

theorem wrap_step (x y : Nat) :
    (x % U64MOD * 10 % U64MOD + y) % U64MOD = (x * 10 + y) % U64MOD := by
  simp only [U64MOD]
  omega

theorem wrapFold_mod (d : List Char) : ∀ a : Nat,
    d.foldl (fun a c => (a * 10 % U64MOD + (c.toNat - 48)) % U64MOD) (a % U64MOD) =
      (d.foldl (fun a c => a * 10 + (c.toNat - 48)) a) % U64MOD := by
  induction d with
  | nil =>
    intro a
    simp
  | cons c d ih =>
    intro a
    simp only [List.foldl_cons]
    rw [wrap_step, ih (a * 10 + (c.toNat - 48))]

theorem wrapFold_zero (d : List Char) :
    d.foldl (fun a c => (a * 10 % U64MOD + (c.toNat - 48)) % U64MOD) 0 =
      digitsVal d % U64MOD := by
  have h := wrapFold_mod d 0
  rw [Nat.zero_mod] at h
  exact h

theorem parsePartGo_render : ∀ (L : List VersionElement) (cur : VersionElement)
    (elems : List VersionElement),
    (∀ e ∈ L, okElem e ∧ e.alpha ≠ []) →
    parsePartGo true cur elems (renderElems L) = elems ++ cur :: L := by
  intro L
  induction L with
  | nil =>
    intro cur elems _
    simp [renderElems, parsePartGo_nil]
  | cons e L ih =>
    intro cur elems hL
    obtain ⟨⟨hea, hen⟩, healpha⟩ := hL e (by simp)
    obtain ⟨c, a', hc⟩ : ∃ c a', e.alpha = c :: a' := by
      cases halpha : e.alpha with
      | nil => exact absurd halpha healpha
      | cons c a' => exact ⟨c, a', rfl⟩
    have hca : ∀ x ∈ e.alpha, isDigit x = false := hea
    rw [show renderElems (e :: L) = renderElement e ++ renderElems L from rfl]
    rw [renderElement, hc]
    simp only [List.cons_append, List.append_assoc]
    rw [parsePartGo_close _ _ c _ (by rw [hc] at hca; exact hca c (by simp))]
    rw [parsePartGo_alpha_run a' _ _ _
      (fun x hx => by rw [hc] at hca; exact hca x (by simp [hx]))]
    rw [parsePartGo_digit_run (natDigits e.numeric) (natDigits_ne_nil _)
      (natDigits_all_digits _) _ _ _ _]
    have hnum :
        (natDigits e.numeric).foldl
          (fun a c => (a * 10 % U64MOD + (c.toNat - 48)) % U64MOD) 0 = e.numeric := by
      rw [wrapFold_zero, digitsVal_natDigits]
      exact Nat.mod_eq_of_lt hen
    rw [hnum]
    rw [ih _ _ (fun f hf => hL f (by simp [hf]))]
    simp [← hc]

theorem WFlist_append_singleton (elems : List VersionElement) (cur : VersionElement)
    (hE : WFlist elems) (hc : okElem cur) (hne : elems ≠ [] → cur.alpha ≠ []) :
    WFlist (elems ++ [cur]) := by
  cases elems with
  | nil => exact ⟨hc, by simp⟩
  | cons e es =>
    obtain ⟨he, hes⟩ := hE
    refine ⟨he, ?_⟩
    intro f hf
    have hf2 : f ∈ es ∨ f = cur := by simpa using hf
    rcases hf2 with hf' | hf'
    · exact hes f hf'
    · rw [hf']
      exact ⟨hc, hne (by simp)⟩

theorem parsePartGo_WF : ∀ (s : List Char) (inNum : Bool) (cur : VersionElement)
    (elems : List VersionElement),
    WFlist elems → okElem cur → (elems ≠ [] → cur.alpha ≠ []) →
    WFlist (parsePartGo inNum cur elems s) := by
  intro s
  induction s with
  | nil =>
    intro inNum cur elems hE hc hne
    rw [parsePartGo_nil]
    exact WFlist_append_singleton elems cur hE hc hne
  | cons ch rest ih =>
    intro inNum cur elems hE hc hne
    by_cases hd : isDigit ch = true
    · rw [parsePartGo_digit _ _ _ _ _ hd]
      apply ih
      · exact hE
      · exact ⟨hc.1, Nat.mod_lt _ (by norm_num [U64MOD])⟩
      · exact hne
    · have hd' : isDigit ch = false := by
        cases h2 : isDigit ch
        · rfl
        · exact absurd h2 hd
      cases inNum with
      | true =>
        rw [parsePartGo_close _ _ _ _ hd']
        apply ih
        · exact WFlist_append_singleton elems cur hE hc hne
        · exact ⟨by simp [hd'], by norm_num [U64MOD]⟩
        · intro _
          simp
      | false =>
        rw [parsePartGo_alpha _ _ _ _ hd']
        apply ih
        · exact hE
        · refine ⟨?_, hc.2⟩
          intro x hx
          rcases List.mem_append.mp hx with hx' | hx'
          · exact hc.1 x hx'
          · rw [List.mem_singleton.mp hx']
            exact hd'
        · intro _
          simp

theorem parse_part_WF (s : List Char) : WFpart (Version.parse_part s) := by
  unfold Version.parse_part
  by_cases h : s = []
  · simp [h, WFpart, WFlist]
  · rw [if_neg h]
    exact parsePartGo_WF s false ⟨[], 0⟩ [] trivial
      ⟨by simp, by norm_num [U64MOD]⟩ (fun hcon => absurd rfl hcon)

theorem parse_part_renderPart {p : VersionPart} (h : WFpart p) :
    Version.parse_part (renderPart p) = p := by
  obtain ⟨L⟩ := p
  cases L with
  | nil => rfl
  | cons e L =>
    obtain ⟨⟨hea, hen⟩, hrest⟩ := h
    have hne : renderPart (⟨e :: L⟩ : VersionPart) ≠ [] := by
      intro hcon
      rw [show renderPart (⟨e :: L⟩ : VersionPart) =
        (e.alpha ++ natDigits e.numeric) ++ renderElems L from rfl] at hcon
      rcases List.append_eq_nil.mp hcon with ⟨h1, -⟩
      rcases List.append_eq_nil.mp h1 with ⟨-, h3⟩
      exact natDigits_ne_nil _ h3
    rw [Version.parse_part, if_neg hne]
    congr 1
    show parsePartGo false ⟨[], 0⟩ [] (renderElems (e :: L)) = e :: L
    rw [show renderElems (e :: L) = renderElement e ++ renderElems L from rfl]
    rw [renderElement, List.append_assoc]
    rw [parsePartGo_alpha_run e.alpha _ _ _ hea]
    simp only [List.nil_append]
    rw [parsePartGo_digit_run (natDigits e.numeric) (natDigits_ne_nil _)
      (natDigits_all_digits _) _ _ _ _]
    have hnum :
        (natDigits e.numeric).foldl
          (fun a c => (a * 10 % U64MOD + (c.toNat - 48)) % U64MOD) 0 = e.numeric := by
      rw [wrapFold_zero, digitsVal_natDigits]
      exact Nat.mod_eq_of_lt hen
    rw [hnum]
    rw [parsePartGo_render L _ _ hrest]
    simp

theorem parsePartGo_alpha_mem : ∀ (s : List Char) (inNum : Bool) (cur : VersionElement)
    (elems : List VersionElement) (ch : Char),
    (∀ e ∈ elems, ch ∉ e.alpha) → ch ∉ cur.alpha → ch ∉ s →
    ∀ e ∈ parsePartGo inNum cur elems s, ch ∉ e.alpha := by
  intro s
  induction s with
  | nil =>
    intro inNum cur elems ch hE hcur _
    rw [parsePartGo_nil]
    intro e he
    rcases List.mem_append.mp he with he' | he'
    · exact hE e he'
    · rw [List.mem_singleton.mp he']
      exact hcur
  | cons c rest ih =>
    intro inNum cur elems ch hE hcur hs
    have hcs : ch ∉ rest := fun hm => hs (by simp [hm])
    have hcc : ch ≠ c := fun hm => hs (by simp [hm])
    by_cases hd : isDigit c = true
    · rw [parsePartGo_digit _ _ _ _ _ hd]
      exact ih _ _ _ _ hE hcur hcs
    · have hd' : isDigit c = false := by
        cases h2 : isDigit c
        · rfl
        · exact absurd h2 hd
      cases inNum with
      | true =>
        rw [parsePartGo_close _ _ _ _ hd']
        apply ih _ _ _ _ _ _ hcs
        · intro e he
          rcases List.mem_append.mp he with he' | he'
          · exact hE e he'
          · rw [List.mem_singleton.mp he']
            exact hcur
        · simp only [List.mem_singleton]
          exact hcc
      | false =>
        rw [parsePartGo_alpha _ _ _ _ hd']
        apply ih _ _ _ _ _ _ hcs
        · exact hE
        · intro hm
          rcases List.mem_append.mp hm with hm' | hm'
          · exact hcur hm'
          · exact hcc (List.mem_singleton.mp hm')

theorem parse_part_alphaFree {s : List Char} {ch : Char} (h : ch ∉ s) :
    partAlphaFree ch (Version.parse_part s) := by
  unfold Version.parse_part
  by_cases hs : s = []
  · simp [hs, partAlphaFree]
  · rw [if_neg hs]
    exact parsePartGo_alpha_mem s false ⟨[], 0⟩ [] ch (by simp) (by simp) h

theorem renderElems_mem {L : List VersionElement} {ch : Char} (h : ch ∈ renderElems L) :
    (∃ e ∈ L, ch ∈ e.alpha) ∨ isDigit ch = true := by
  induction L with
  | nil => simp [renderElems] at h
  | cons e L ih =>
    rw [show renderElems (e :: L) = renderElement e ++ renderElems L from rfl] at h
    rcases List.mem_append.mp h with h' | h'
    · rw [renderElement] at h'
      rcases List.mem_append.mp h' with h'' | h''
      · exact Or.inl ⟨e, by simp, h''⟩
      · exact Or.inr (natDigits_all_digits _ _ h'')
    · rcases ih h' with ⟨f, hf, hfa⟩ | hd
      · exact Or.inl ⟨f, by simp [hf], hfa⟩
      · exact Or.inr hd

/-! ### Parse-level lemmas -/

theorem parseU32_lt {s : List Char} {e : Nat} (h : parseU32 s = some e) : e < U32BOUND := by
  unfold parseU32 at h
  dsimp only at h
  split at h
  · exact absurd h (by simp)
  · split at h
    · split at h
      · cases h
        assumption
      · exact absurd h (by simp)
    · exact absurd h (by simp)

theorem not_mem_natDigits {ch : Char} {n : Nat} (hch : isDigit ch = false) :
    ch ∉ natDigits n := by
  intro hm
  have h2 := natDigits_all_digits n ch hm
  rw [h2] at hch
  simp at hch

theorem renderPart_free {p : VersionPart} {ch : Char} (hch : isDigit ch = false)
    (h : partAlphaFree ch p) : ch ∉ renderPart p := by
  intro hmem
  rcases renderElems_mem hmem with ⟨e, he, ha⟩ | hd
  · exact h e he ha
  · rw [hd] at hch
    simp at hch

theorem version_parse_ok_inv {s : List Char} {v : Version} (h : Version.parse s = .ok v) :
    WFpart v.upstream_version ∧ WFpart v.debian_revision ∧ v.epoch < U32BOUND ∧
      partAlphaFree '-' v.debian_revision := by
  unfold Version.parse at h
  cases hbf : breakAtFirst ':' s with
  | some pr =>
    obtain ⟨pre, rest⟩ := pr
    rw [hbf] at h
    dsimp only at h
    cases hp : parseU32 pre with
    | none =>
      rw [hp] at h
      exact absurd h (by simp)
    | some e =>
      rw [hp] at h
      dsimp only at h
      cases hbl : breakAtLast '-' rest with
      | some ur =>
        obtain ⟨u, r⟩ := ur
        rw [hbl] at h
        simp only [Except.ok.injEq] at h
        subst h
        exact ⟨parse_part_WF u, parse_part_WF r, parseU32_lt hp,
          parse_part_alphaFree (breakAtLast_eq_some.mp hbl).2⟩
      | none =>
        rw [hbl] at h
        simp only [Except.ok.injEq] at h
        subst h
        exact ⟨parse_part_WF rest, trivial, parseU32_lt hp, fun e he => by simp at he⟩
  | none =>
    rw [hbf] at h
    dsimp only at h
    cases hbl : breakAtLast '-' s with
    | some ur =>
      obtain ⟨u, r⟩ := ur
      rw [hbl] at h
      simp only [Except.ok.injEq] at h
      subst h
      exact ⟨parse_part_WF u, parse_part_WF r, by norm_num [U32BOUND],
        parse_part_alphaFree (breakAtLast_eq_some.mp hbl).2⟩
    | none =>
      rw [hbl] at h
      simp only [Except.ok.injEq] at h
      subst h
      exact ⟨parse_part_WF s, trivial, by norm_num [U32BOUND], fun e he => by simp at he⟩

/-! ### Claim C1 -/

/-- C1: the claim states that `Ord::cmp` on parsed `Version`s never fails
and that the `assert!(alpha.is_empty())` in `Ord for VersionElement` holds
for all parsed inputs.  The code violates this: `Version::parse("1.0")`
succeeds and produces the element `⟨['.'], 0⟩` with a nonempty `alpha`, so
comparing the parsed version with itself through `Ord::cmp` hits the failed
assertion (modelled as `none`, a panic in Rust). -/
theorem C1_ord_cmp_assert_fails :
    Version.parse "1.0".toList = .ok ⟨0, ⟨[⟨[], 1⟩, ⟨['.'], 0⟩]⟩, ⟨[]⟩⟩ ∧
    versionCmpOrd ⟨0, ⟨[⟨[], 1⟩, ⟨['.'], 0⟩]⟩, ⟨[]⟩⟩
      ⟨0, ⟨[⟨[], 1⟩, ⟨['.'], 0⟩]⟩, ⟨[]⟩⟩ = none := by
  constructor
  · decide
  · decide

/-! ### Claim C2 -/

/-- C2: the operator comparison (`partial_cmp`, which is total on these
types) decides by priority epoch, then upstream version, then revision;
parts compare element by element with `numeric` before `alpha`; the first
differing element pair decides; a proper prefix precedes its extensions. -/
theorem C2_comparison_priority :
    (∀ a b : Version, compare a.epoch b.epoch ≠ .eq →
      versionCmpP a b = compare a.epoch b.epoch) ∧
    (∀ a b : Version, a.epoch = b.epoch →
      versionPartCmpP a.upstream_version b.upstream_version ≠ .eq →
      versionCmpP a b = versionPartCmpP a.upstream_version b.upstream_version) ∧
    (∀ a b : Version, a.epoch = b.epoch →
      a.upstream_version = b.upstream_version →
      versionCmpP a b = versionPartCmpP a.debian_revision b.debian_revision) ∧
    (∀ e f : VersionElement, e.numeric ≠ f.numeric →
      versionElementCmpP e f = compare e.numeric f.numeric) ∧
    (∀ e f : VersionElement, e.numeric = f.numeric →
      versionElementCmpP e f = lexBy charCmp e.alpha f.alpha) ∧
    (∀ (pre xs ys : List VersionElement) (x y : VersionElement),
      versionElementCmpP x y ≠ .eq →
      versionPartCmpP ⟨pre ++ x :: xs⟩ ⟨pre ++ y :: ys⟩ = versionElementCmpP x y) ∧
    (∀ p q : List VersionElement, q ≠ [] → versionPartCmpP ⟨p⟩ ⟨p ++ q⟩ = .lt) := by
  refine ⟨?_, ?_, ?_, ?_, ?_, ?_, ?_⟩
  · intro a b h
    unfold versionCmpP
    cases hn : compare a.epoch b.epoch with
    | eq => exact absurd hn h
    | lt => rfl
    | gt => rfl
  · intro a b he h
    unfold versionCmpP
    rw [Nat.compare_eq_eq.mpr he]
    cases hu : versionPartCmpP a.upstream_version b.upstream_version with
    | eq => exact absurd hu h
    | lt => rfl
    | gt => rfl
  · intro a b he hu
    unfold versionCmpP
    rw [Nat.compare_eq_eq.mpr he, (versionPartCmpP_eq_eq _ _).mpr hu]
  · intro e f h
    unfold versionElementCmpP
    cases hn : compare e.numeric f.numeric with
    | eq => exact absurd (Nat.compare_eq_eq.mp hn) h
    | lt => rfl
    | gt => rfl
  · intro e f h
    unfold versionElementCmpP
    rw [Nat.compare_eq_eq.mpr h]
  · intro pre
    induction pre with
    | nil =>
      intro xs ys x y h
      show lexBy versionElementCmpP (x :: xs) (y :: ys) = versionElementCmpP x y
      cases hxy : versionElementCmpP x y with
      | eq => exact absurd hxy h
      | lt => simp [lexBy, hxy]
      | gt => simp [lexBy, hxy]
    | cons p pre ih =>
      intro xs ys x y h
      show lexBy versionElementCmpP (p :: (pre ++ x :: xs)) (p :: (pre ++ y :: ys)) =
        versionElementCmpP x y
      have hp : versionElementCmpP p p = .eq := (versionElementCmpP_eq_eq p p).mpr rfl
      simp only [lexBy, hp]
      exact ih xs ys x y h
  · intro p
    induction p with
    | nil =>
      intro q hq
      cases q with
      | nil => exact absurd rfl hq
      | cons c q' => simp [versionPartCmpP, lexBy]
    | cons p ps ih =>
      intro q hq
      show lexBy versionElementCmpP (p :: ps) (p :: (ps ++ q)) = .lt
      have hp : versionElementCmpP p p = .eq := (versionElementCmpP_eq_eq p p).mpr rfl
      simp only [lexBy, hp]
      exact ih q hq

/-- Witness for C2 at concrete inputs. -/
theorem C2_comparison_priority_witness :
    versionPartCmpP ⟨[⟨[], 1⟩]⟩ ⟨[⟨[], 1⟩] ++ [⟨['a'], 2⟩]⟩ = .lt :=
  C2_comparison_priority.2.2.2.2.2.2 [⟨[], 1⟩] [⟨['a'], 2⟩] (by decide)

/-! ### Claim C4 -/

/-- C4: on parsed versions the operator order is a strict weak order:
exactly one of `a < b`, `a == b`, `a > b` holds (`<`/`>` being
`partial_cmp = Some(Less/Greater)`, `==` the structural equality), and `<`
is transitive. -/
theorem C4_strict_weak_order (sa sb sc : List Char) (a b c : Version)
    (ha : Version.parse sa = .ok a) (hb : Version.parse sb = .ok b)
    (hc : Version.parse sc = .ok c) :
    ((versionCmpP a b = .lt ∨ a = b ∨ versionCmpP a b = .gt) ∧
      ¬(versionCmpP a b = .lt ∧ a = b) ∧
      ¬(versionCmpP a b = .lt ∧ versionCmpP a b = .gt) ∧
      ¬(a = b ∧ versionCmpP a b = .gt)) ∧
    (versionCmpP a b = .lt → versionCmpP b c = .lt → versionCmpP a c = .lt) := by
  constructor
  · refine ⟨?_, ?_, ?_, ?_⟩
    · cases h : versionCmpP a b with
      | lt => exact Or.inl rfl
      | eq => exact Or.inr (Or.inl ((versionCmpP_eq_eq a b).mp h))
      | gt => exact Or.inr (Or.inr rfl)
    · rintro ⟨h1, h2⟩
      rw [(versionCmpP_eq_eq a b).mpr h2] at h1
      exact absurd h1 (by decide)
    · rintro ⟨h1, h2⟩
      rw [h1] at h2
      exact absurd h2 (by decide)
    · rintro ⟨h1, h2⟩
      rw [(versionCmpP_eq_eq a b).mpr h1] at h2
      exact absurd h2 (by decide)
  · exact versionCmpP_lt_trans a b c

/-- Witness for C4: transitivity at three concretely parsed versions. -/
theorem C4_strict_weak_order_witness :
    versionCmpP ⟨0, ⟨[⟨[], 1⟩]⟩, ⟨[]⟩⟩ ⟨0, ⟨[⟨[], 3⟩]⟩, ⟨[]⟩⟩ = .lt :=
  (C4_strict_weak_order "1".toList "2".toList "3".toList
    ⟨0, ⟨[⟨[], 1⟩]⟩, ⟨[]⟩⟩ ⟨0, ⟨[⟨[], 2⟩]⟩, ⟨[]⟩⟩ ⟨0, ⟨[⟨[], 3⟩]⟩, ⟨[]⟩⟩
    (by decide) (by decide) (by decide)).2 (by decide) (by decide)

/-! ### Claim C5 -/

/-- C5: `Version::parse` fails exactly when the string has a `':'` whose
prefix does not parse as a `u32`, and the error carries position `0` and
the fixed epoch message. -/
theorem C5_error_iff (s : List Char) :
    (isErr (Version.parse s) = true ↔
      ':' ∈ s ∧ parseU32 (s.takeWhile (fun c => c != ':')) = none) ∧
    (∀ e, Version.parse s = .error e →
      e.pos = 0 ∧ e.msg = "Expected a numeric epoch.") := by
  constructor
  · unfold Version.parse
    cases hbf : breakAtFirst ':' s with
    | none =>
      have hnm : ':' ∉ s := breakAtFirst_eq_none.mp hbf
      constructor
      · intro h
        exfalso
        dsimp only at h
        cases hbl : breakAtLast '-' s <;> rw [hbl] at h <;> simp [isErr] at h
      · rintro ⟨hmem, -⟩
        exact absurd hmem hnm
    | some pr =>
      obtain ⟨pre, rest⟩ := pr
      have hdecomp := breakAtFirst_eq_some.mp hbf
      have hpre : pre = s.takeWhile (fun c => c != ':') := breakAtFirst_fst_takeWhile hbf
      have hmem : ':' ∈ s := by
        rw [hdecomp.1]
        simp
      cases hp : parseU32 pre with
      | none =>
        constructor
        · intro _
          exact ⟨hmem, by rw [← hpre]; exact hp⟩
        · intro _
          dsimp only
          rw [hp]
          simp [isErr]
      | some e =>
        constructor
        · intro h
          exfalso
          dsimp only at h
          rw [hp] at h
          dsimp only at h
          cases hbl : breakAtLast '-' rest <;> rw [hbl] at h <;> simp [isErr] at h
        · rintro ⟨-, hnone⟩
          rw [← hpre, hp] at hnone
          exact absurd hnone (by simp)
  · intro e he
    unfold Version.parse at he
    cases hbf : breakAtFirst ':' s with
    | none =>
      rw [hbf] at he
      dsimp only at he
      cases hbl : breakAtLast '-' s <;> rw [hbl] at he <;> exact absurd he (by simp)
    | some pr =>
      obtain ⟨pre, rest⟩ := pr
      rw [hbf] at he
      dsimp only at he
      cases hp : parseU32 pre with
      | none =>
        rw [hp] at he
        simp only [Except.error.injEq] at he
        rw [← he]
        exact ⟨rfl, rfl⟩
      | some ee =>
        rw [hp] at he
        dsimp only at he
        cases hbl : breakAtLast '-' rest <;> rw [hbl] at he <;> exact absurd he (by simp)

/-- Witness for C5: `"a:1"` fails to parse (non-numeric epoch). -/
theorem C5_error_iff_witness : isErr (Version.parse "a:1".toList) = true :=
  (C5_error_iff "a:1".toList).1.mpr ⟨by decide, by decide⟩

/-! ### Claim C6 -/

/-- C6 counterexample: the claim says scanning any string and re-rendering
reproduces the original text up to dropped leading zeros of digit runs.
`parse_part("a")` renders back as `"a0"`, which appends a digit that was
never present, so the claim as stated is false. -/
theorem C6_counterexample :
    renderPart (Version.parse_part "a".toList) ≠ "a".toList := by
  decide

/-- C6 amended: re-rendering reproduces the scanned string exactly for the
strings that are themselves exact renderings of a well-formed element
sequence — equivalently those whose digit runs have no leading zeros and
values below `2^64`, and which are empty or end with a digit.  (Otherwise
the rendering may canonicalize leading zeros, reduce an overflowing digit
run modulo `2^64`, or append `0` after a trailing non-digit run.) -/
theorem C6_amended_render_exact (s : List Char) (L : List VersionElement)
    (hs : s = renderElems L) (hWF : WFlist L) :
    renderPart (Version.parse_part s) = s := by
  subst hs
  have h : Version.parse_part (renderPart ⟨L⟩) = ⟨L⟩ := parse_part_renderPart hWF
  rw [show renderElems L = renderPart ⟨L⟩ from rfl, h]

/-- Witness for C6 at a concrete well-formed input. -/
theorem C6_amended_render_exact_witness :
    renderPart (Version.parse_part "a1".toList) = "a1".toList :=
  C6_amended_render_exact "a1".toList [⟨['a'], 1⟩] (by decide) (by decide)

/-! ### Claim C7 -/

/-- C7: the first `':'` is the epoch separator and the last `'-'` the
revision separator, independently; in particular `"1:1:1-8-8"` parses to
epoch `1`, upstream `parse_part("1:1-8")` and revision `parse_part("8")`.
The last two conjuncts pin down that `breakAtFirst`/`breakAtLast` really
mean the first and last occurrence. -/
theorem C7_separators :
    (Version.parse "1:1:1-8-8".toList =
      .ok ⟨1, Version.parse_part "1:1-8".toList, Version.parse_part "8".toList⟩) ∧
    (∀ (s pre rest u r : List Char) (v : Nat), breakAtFirst ':' s = some (pre, rest) →
      parseU32 pre = some v → breakAtLast '-' rest = some (u, r) →
      Version.parse s = .ok ⟨v, Version.parse_part u, Version.parse_part r⟩) ∧
    (∀ (c : Char) (s a b : List Char),
      breakAtFirst c s = some (a, b) ↔ s = a ++ c :: b ∧ c ∉ a) ∧
    (∀ (c : Char) (s a b : List Char),
      breakAtLast c s = some (a, b) ↔ s = a ++ c :: b ∧ c ∉ b) := by
  refine ⟨by decide, ?_, ?_, ?_⟩
  · intro s pre rest u r v h1 h2 h3
    simp [Version.parse, h1, h2, h3]
  · exact fun c s a b => breakAtFirst_eq_some
  · exact fun c s a b => breakAtLast_eq_some

/-- Witness for C7 at a concrete input. -/
theorem C7_separators_witness :
    Version.parse "1:2-3".toList =
      .ok ⟨1, Version.parse_part "2".toList, Version.parse_part "3".toList⟩ :=
  C7_separators.2.1 "1:2-3".toList "1".toList "2-3".toList "2".toList "3".toList 1
    (by decide) (by decide) (by decide)

/-! ### Claim C3 -/

theorem parse_renderVersion {v : Version}
    (hu : WFpart v.upstream_version) (hr : WFpart v.debian_revision)
    (he : v.epoch < U32BOUND)
    (hrd : partAlphaFree '-' v.debian_revision)
    (hcolon : v.epoch = 0 →
      partAlphaFree ':' v.upstream_version ∧ partAlphaFree ':' v.debian_revision)
    (hdash : v.debian_revision.elements = [] → partAlphaFree '-' v.upstream_version) :
    Version.parse (renderVersion v) = .ok v := by
  obtain ⟨ep, up, rev⟩ := v
  cases hrevE : rev.elements with
  | nil =>
    have hrev0 : rev = ⟨[]⟩ := by
      cases rev
      simp_all
    subst hrev0
    cases ep with
    | zero =>
      obtain ⟨hcu, hcr⟩ := hcolon rfl
      have hdu : partAlphaFree '-' up := hdash rfl
      show Version.parse (renderPart up) = _
      unfold Version.parse
      rw [breakAtFirst_eq_none.mpr (renderPart_free (by decide) hcu)]
      dsimp only
      rw [breakAtLast_eq_none.mpr (renderPart_free (by decide) hdu)]
      dsimp only
      rw [parse_part_renderPart hu]
    | succ e' =>
      have hdu : partAlphaFree '-' up := hdash rfl
      show Version.parse (natDigits (e' + 1) ++ ':' :: renderPart up) = _
      unfold Version.parse
      rw [show breakAtFirst ':' (natDigits (e' + 1) ++ ':' :: renderPart up) =
          some (natDigits (e' + 1), renderPart up) from
        breakAtFirst_eq_some.mpr ⟨rfl, not_mem_natDigits (by decide)⟩]
      dsimp only
      rw [parseU32_natDigits he]
      dsimp only
      rw [breakAtLast_eq_none.mpr (renderPart_free (by decide) hdu)]
      dsimp only
      rw [parse_part_renderPart hu]
  | cons r0 rr =>
    have hlen : rev.elements.length = rr.length + 1 := by
      rw [hrevE]
      rfl
    have hRd : '-' ∉ renderPart rev := renderPart_free (by decide) hrd
    cases ep with
    | zero =>
      obtain ⟨hcu, hcr⟩ := hcolon rfl
      have hrender : renderVersion ⟨0, up, rev⟩ =
          renderPart up ++ '-' :: renderPart rev := by
        unfold renderVersion
        simp only [hlen]
      rw [hrender]
      unfold Version.parse
      have hnc : ':' ∉ renderPart up ++ '-' :: renderPart rev := by
        intro hm
        rcases List.mem_append.mp hm with hm' | hm'
        · exact renderPart_free (by decide) hcu hm'
        · rcases List.mem_cons.mp hm' with hm'' | hm''
          · exact absurd hm'' (by decide)
          · exact renderPart_free (by decide) hcr hm''
      rw [breakAtFirst_eq_none.mpr hnc]
      dsimp only
      rw [show breakAtLast '-' (renderPart up ++ '-' :: renderPart rev) =
          some (renderPart up, renderPart rev) from
        breakAtLast_eq_some.mpr ⟨rfl, hRd⟩]
      dsimp only
      rw [parse_part_renderPart hu, parse_part_renderPart hr]
    | succ e' =>
      have hrender : renderVersion ⟨e' + 1, up, rev⟩ =
          natDigits (e' + 1) ++ ':' :: (renderPart up ++ '-' :: renderPart rev) := by
        unfold renderVersion
        simp only [hlen]
        simp [List.append_assoc]
      rw [hrender]
      unfold Version.parse
      rw [show breakAtFirst ':'
            (natDigits (e' + 1) ++ ':' :: (renderPart up ++ '-' :: renderPart rev)) =
          some (natDigits (e' + 1), renderPart up ++ '-' :: renderPart rev) from
        breakAtFirst_eq_some.mpr ⟨rfl, not_mem_natDigits (by decide)⟩]
      dsimp only
      rw [parseU32_natDigits he]
      dsimp only
      rw [show breakAtLast '-' (renderPart up ++ '-' :: renderPart rev) =
          some (renderPart up, renderPart rev) from
        breakAtLast_eq_some.mpr ⟨rfl, hRd⟩]
      dsimp only
      rw [parse_part_renderPart hu, parse_part_renderPart hr]

/-- C3 counterexample: the claim says every successfully parsed
whitespace-free string re-renders to a string that parses back to an equal
`Version`.  `"0::"` parses (epoch `0`, upstream element `⟨[':'], 0⟩`), but
renders as `":0"`, whose epoch segment is empty, so re-parsing fails. -/
theorem C3_counterexample :
    Version.parse "0::".toList = .ok ⟨0, ⟨[⟨[':'], 0⟩]⟩, ⟨[]⟩⟩ ∧
    (∀ c ∈ "0::".toList, isRustWhitespace c = false) ∧
    isErr (Version.parse (renderVersion ⟨0, ⟨[⟨[':'], 0⟩]⟩, ⟨[]⟩⟩)) = true := by
  refine ⟨by decide, by decide, by decide⟩

/-- C3 amended: for a whitespace-free string that parses successfully, the
rendered text parses back to the same `Version`, provided that when the
rendering suppresses the `epoch:` prefix (epoch `0`) no alpha run of either
part contains `':'`, and when it suppresses the `-revision` suffix (empty
revision) no alpha run of the upstream version contains `'-'`. -/
theorem C3_amended_round_trip (s : List Char) (v : Version)
    (hp : Version.parse s = .ok v)
    (hws : ∀ c ∈ s, isRustWhitespace c = false)
    (hcolon : v.epoch = 0 →
      partAlphaFree ':' v.upstream_version ∧ partAlphaFree ':' v.debian_revision)
    (hdash : v.debian_revision.elements = [] → partAlphaFree '-' v.upstream_version) :
    Version.parse (renderVersion v) = .ok v := by
  obtain ⟨hu, hr, he, hrd⟩ := version_parse_ok_inv hp
  exact parse_renderVersion hu hr he hrd hcolon hdash

/-- Witness for C3 at `"1.2-3"`. -/
theorem C3_amended_round_trip_witness :
    Version.parse (renderVersion ⟨0, ⟨[⟨[], 1⟩, ⟨['.'], 2⟩]⟩, ⟨[⟨[], 3⟩]⟩⟩) =
      .ok ⟨0, ⟨[⟨[], 1⟩, ⟨['.'], 2⟩]⟩, ⟨[⟨[], 3⟩]⟩⟩ :=
  C3_amended_round_trip "1.2-3".toList ⟨0, ⟨[⟨[], 1⟩, ⟨['.'], 2⟩]⟩, ⟨[⟨[], 3⟩]⟩⟩
    (by decide) (by decide) (by decide) (by decide)

/-! ### Scanner lemmas for `parse_single_dep` -/

theorem psdGo_pkg_ws (r : SingleDependency) (vrel vdef arch rest : List Char)
    (c : Char) (hc : isRustWhitespace c = true) :
    psdGo .PackageName r vrel vdef arch (c :: rest) =
      psdGo .PreVersion r vrel vdef arch rest := by
  simp [psdGo, hc]

theorem psdGo_preVersion_paren (r : SingleDependency) (vrel vdef arch rest : List Char) :
    psdGo .PreVersion r vrel vdef arch ('(' :: rest) =
      psdGo .InVersionRel r vrel vdef arch rest := by
  simp [psdGo, show isRustWhitespace '(' = false from rfl]

theorem psdGo_inVersionRel_to_def (r : SingleDependency) (vrel vdef arch rest : List Char)
    (c : Char) (hc1 : ¬(c = '>' ∨ c = '<' ∨ c = '=')) (hc2 : c ≠ ')') :
    psdGo .InVersionRel r vrel vdef arch (c :: rest) =
      psdGo .InVersionDef r vrel (vdef ++ [c]) arch rest := by
  simp [psdGo, hc1, hc2]

theorem psdGo_package_run : ∀ (p : List Char) (r0 : SingleDependency)
    (vrel vdef arch rest : List Char),
    (∀ c ∈ p, isRustWhitespace c = false ∧ c ≠ '(') →
    psdGo .PackageName r0 vrel vdef arch (p ++ rest) =
      psdGo .PackageName { r0 with package := r0.package ++ p } vrel vdef arch rest := by
  intro p
  induction p with
  | nil =>
    intro r0 vrel vdef arch rest _
    simp
  | cons c p ih =>
    intro r0 vrel vdef arch rest hp
    obtain ⟨hw, hpar⟩ := hp c (by simp)
    rw [List.cons_append]
    rw [show psdGo .PackageName r0 vrel vdef arch (c :: (p ++ rest)) =
        psdGo .PackageName { r0 with package := r0.package ++ [c] } vrel vdef arch
          (p ++ rest) from by simp [psdGo, hw, hpar]]
    rw [ih _ vrel vdef arch rest (fun x hx => hp x (by simp [hx]))]
    simp

theorem psdGo_vrel_run : ∀ (t : List Char) (r : SingleDependency)
    (vrel vdef arch rest : List Char),
    (∀ c ∈ t, c = '>' ∨ c = '<' ∨ c = '=') →
    psdGo .InVersionRel r vrel vdef arch (t ++ rest) =
      psdGo .InVersionRel r (vrel ++ t) vdef arch rest := by
  intro t
  induction t with
  | nil =>
    intro r vrel vdef arch rest _
    simp
  | cons c t ih =>
    intro r vrel vdef arch rest ht
    have hc := ht c (by simp)
    rw [List.cons_append]
    rw [show psdGo .InVersionRel r vrel vdef arch (c :: (t ++ rest)) =
        psdGo .InVersionRel r (vrel ++ [c]) vdef arch (t ++ rest) from by
      simp only [psdGo]
      rw [if_pos hc]]
    rw [ih r _ vdef arch rest (fun x hx => ht x (by simp [hx]))]
    simp

theorem psdGo_vdef_run : ∀ (t : List Char) (r : SingleDependency)
    (vrel vdef arch rest : List Char),
    (∀ c ∈ t, c ≠ ')') →
    psdGo .InVersionDef r vrel vdef arch (t ++ rest) =
      psdGo .InVersionDef r vrel (vdef ++ t) arch rest := by
  intro t
  induction t with
  | nil =>
    intro r vrel vdef arch rest _
    simp
  | cons c t ih =>
    intro r vrel vdef arch rest ht
    have hc := ht c (by simp)
    rw [List.cons_append]
    rw [show psdGo .InVersionDef r vrel vdef arch (c :: (t ++ rest)) =
        psdGo .InVersionDef r vrel (vdef ++ [c]) arch (t ++ rest) from by
      simp [psdGo, hc]]
    rw [ih r vrel _ arch rest (fun x hx => ht x (by simp [hx]))]
    simp

theorem psdGo_placeholder_close (r : SingleDependency) (vrel vdef arch : List Char)
    (h : trim vdef = binaryVersionPH ∨ trim vdef = sourceVersionPH) :
    psdGo .InVersionDef r vrel vdef arch [')'] = .ok r := by
  simp only [psdGo, if_true]
  rw [if_pos h]

/-! ### Claim C8 -/

/-- C8: a dependency of the form `pkg (rel ${...:Version})`, for any
package name (no whitespace, no `'('`), any relation text over the
characters `>`, `<`, `=`, and either of the two placeholders, parses
successfully to a `SingleDependency` with no version constraint. -/
theorem C8_version_placeholder (pkg rel ph : List Char)
    (hpkg : ∀ c ∈ pkg, isRustWhitespace c = false ∧ c ≠ '(')
    (hrel : ∀ c ∈ rel, c = '>' ∨ c = '<' ∨ c = '=')
    (hph : ph = binaryVersionPH ∨ ph = sourceVersionPH) :
    parse_single_dep (pkg ++ ' ' :: '(' :: (rel ++ ' ' :: (ph ++ [')']))) =
      .ok ⟨pkg, none, none, none⟩ := by
  have hphc : ∀ c ∈ ph, c ≠ ')' := by
    rcases hph with rfl | rfl <;> decide
  have htrim : trim (([] ++ [' ']) ++ ph) = binaryVersionPH ∨
      trim (([] ++ [' ']) ++ ph) = sourceVersionPH := by
    rcases hph with rfl | rfl
    · exact Or.inl (by decide)
    · exact Or.inr (by decide)
  unfold parse_single_dep
  rw [psdGo_package_run pkg _ _ _ _ _ hpkg]
  rw [psdGo_pkg_ws _ _ _ _ _ ' ' rfl]
  rw [psdGo_preVersion_paren _ _ _ _ _]
  rw [psdGo_vrel_run rel _ _ _ _ _ hrel]
  rw [psdGo_inVersionRel_to_def _ _ _ _ _ ' ' (by decide) (by decide)]
  rw [psdGo_vdef_run ph _ _ _ _ _ hphc]
  rw [psdGo_placeholder_close _ _ _ _ htrim]
  simp

/-- Witness for C8 at a concrete package and relation. -/
theorem C8_version_placeholder_witness :
    parse_single_dep ("foo".toList ++ ' ' :: '(' :: (['>', '='] ++ ' ' ::
      (binaryVersionPH ++ [')']))) = .ok ⟨"foo".toList, none, none, none⟩ :=
  C8_version_placeholder "foo".toList ['>', '='] binaryVersionPH
    (by decide) (by decide) (Or.inl rfl)

/-! ### `mapE` lemmas -/

theorem mapE_ok_iff {f : α → Except ε β} : ∀ {l : List α} {out : List β},
    mapE f l = .ok out ↔ List.Forall₂ (fun a b => f a = .ok b) l out := by
  intro l
  induction l with
  | nil =>
    intro out
    constructor
    · intro h
      simp only [mapE, Except.ok.injEq] at h
      subst h
      exact List.Forall₂.nil
    · intro h
      cases h
      rfl
  | cons x xs ih =>
    intro out
    constructor
    · intro h
      simp only [mapE] at h
      cases hfx : f x with
      | error e =>
        rw [hfx] at h
        exact absurd h (by simp)
      | ok y =>
        rw [hfx] at h
        dsimp only at h
        cases hm : mapE f xs with
        | error e =>
          rw [hm] at h
          exact absurd h (by simp)
        | ok ys =>
          rw [hm] at h
          simp only [Except.ok.injEq] at h
          subst h
          exact List.Forall₂.cons hfx (ih.mp hm)
    · intro h
      cases h with
      | cons hfx hrest =>
        simp only [mapE, hfx]
        rw [ih.mpr hrest]

theorem mapE_ok_of_all {f : α → Except ε β} : ∀ {l : List α},
    (∀ x ∈ l, ∃ y, f x = .ok y) → ∃ out, mapE f l = .ok out := by
  intro l
  induction l with
  | nil =>
    intro _
    exact ⟨[], rfl⟩
  | cons x xs ih =>
    intro h
    obtain ⟨y, hy⟩ := h x (by simp)
    obtain ⟨out, hout⟩ := ih (fun a ha => h a (by simp [ha]))
    exact ⟨y :: out, by simp only [mapE, hy, hout]⟩

theorem mapE_first_error {f : α → Except ε β} : ∀ (A : List α) (x : α) (B : List α) (e : ε),
    (∀ a ∈ A, ∃ y, f a = .ok y) → f x = .error e →
    mapE f (A ++ x :: B) = .error e := by
  intro A
  induction A with
  | nil =>
    intro x B e _ hx
    simp [mapE, hx]
  | cons a A ih =>
    intro x B e hA hx
    obtain ⟨y, hy⟩ := hA a (by simp)
    simp only [List.cons_append, mapE, hy]
    simp only [List.append_eq]
    rw [ih x B e (fun a' ha' => hA a' (by simp [ha'])) hx]

/-! ### Claim C9 -/

/-- C9: `parse_dep_list` splits on `','` into trimmed AND-segments, each
segment on `'|'` into trimmed alternatives parsed in order by
`parse_single_dep`, and the first failing alternative aborts the whole
parse with that error; the concrete example of the claim evaluates to the
stated two groups. -/
theorem C9_dep_list_structure :
    (∀ (s : List Char) (groups : List Dependency), parse_dep_list s = .ok groups →
      List.Forall₂ (fun seg g =>
        List.Forall₂ (fun alt d => parse_single_dep alt = .ok d) (altsOf seg)
          g.alternatives)
        (segsOf s) groups) ∧
    (∀ (s : List Char) (A : List (List Char)) (seg : List Char) (B : List (List Char))
        (xs : List (List Char)) (bad : List Char) (ys : List (List Char)) (e : String),
      segsOf s = A ++ seg :: B →
      (∀ sa ∈ A, ∀ alt ∈ altsOf sa, ∃ d, parse_single_dep alt = .ok d) →
      altsOf seg = xs ++ bad :: ys →
      (∀ x ∈ xs, ∃ d, parse_single_dep x = .ok d) →
      parse_single_dep bad = .error e →
      parse_dep_list s = .error e) ∧
    (parse_dep_list "foo (>= 3.2) | bar, baz (>= 1)".toList =
      .ok [⟨[⟨"foo".toList,
              some (.GreaterOrEqual, ⟨0, Version.parse_part "3.2".toList, ⟨[]⟩⟩),
              none, none⟩,
            ⟨"bar".toList, none, none, none⟩]⟩,
          ⟨[⟨"baz".toList,
              some (.GreaterOrEqual, ⟨0, Version.parse_part "1".toList, ⟨[]⟩⟩),
              none, none⟩]⟩]) := by
  refine ⟨?_, ?_, by decide⟩
  · intro s groups h
    unfold parse_dep_list at h
    have h1 := mapE_ok_iff.mp h
    refine List.Forall₂.imp (fun seg g hsg => ?_) h1
    cases hm : mapE parse_single_dep (altsOf seg) with
    | error e =>
      rw [hm] at hsg
      exact absurd hsg (by simp)
    | ok alts =>
      rw [hm] at hsg
      simp only [Except.ok.injEq] at hsg
      subst hsg
      exact mapE_ok_iff.mp hm
  · intro s A seg B xs bad ys e hsegs hA halts hxs hbad
    unfold parse_dep_list
    rw [hsegs]
    apply mapE_first_error A seg B e
    · intro sa hsa
      obtain ⟨out, hout⟩ := mapE_ok_of_all (hA sa hsa)
      exact ⟨⟨out⟩, by simp only [hout]⟩
    · have hinner : mapE parse_single_dep (altsOf seg) = .error e := by
        rw [halts]
        exact mapE_first_error xs bad ys e hxs hbad
      simp only [hinner]

/-- Witness for C9 at a concrete input. -/
theorem C9_dep_list_structure_witness :
    List.Forall₂ (fun (seg : List Char) (g : Dependency) =>
      List.Forall₂ (fun alt d => parse_single_dep alt = .ok d) (altsOf seg)
        g.alternatives)
      (segsOf "a".toList) ([⟨[⟨"a".toList, none, none, none⟩]⟩] : List Dependency) :=
  C9_dep_list_structure.1 "a".toList [⟨[⟨"a".toList, none, none, none⟩]⟩] (by decide)

/-! ### Claim C10 -/

/-- C10: `parse_single_dep` accepts the empty string (empty package name,
everything else `None`), never errors on an input of only package-name
characters, and `parse_dep_list` therefore accepts empty segments such as
in `"a,,b"`, producing alternatives with empty package names. -/
theorem C10_empty_package :
    (parse_single_dep [] = .ok ⟨[], none, none, none⟩) ∧
    (∀ s : List Char, (∀ c ∈ s, isRustWhitespace c = false ∧ c ≠ '(') →
      parse_single_dep s = .ok ⟨s, none, none, none⟩) ∧
    (parse_dep_list "a,,b".toList =
      .ok [⟨[⟨"a".toList, none, none, none⟩]⟩, ⟨[⟨[], none, none, none⟩]⟩,
        ⟨[⟨"b".toList, none, none, none⟩]⟩]) := by
  refine ⟨rfl, ?_, by decide⟩
  intro s hs
  unfold parse_single_dep
  have h := psdGo_package_run s ⟨[], none, none, none⟩ [] [] [] [] hs
  rw [List.append_nil] at h
  rw [h]
  simp [psdGo]

/-- Witness for C10 at a concrete package name. -/
theorem C10_empty_package_witness :
    parse_single_dep "x".toList = .ok ⟨"x".toList, none, none, none⟩ :=
  C10_empty_package.2.1 "x".toList (by decide)
